import Mathlib

/-!
Verification development for the aergo full-node core.

The Lean definitions below are a shallow embedding of the Go sources:
  * `src/state/statedb.go`   — the state engine (ChainStateDB)
  * `src/p2p/actorwork.go`   — p2p request/notice operations
  * `src/unnamed/part_001`   — the peer manager (package p2p)

Modelling conventions:
  * 32-byte opaque identifiers (BlockID, hashes) are modelled as `Nat`,
    since the code only compares them for equality.
  * `types.AccountID` is modelled as its raw byte sequence (`List Nat`),
    because the engine sorts account ids lexicographically on raw bytes.
  * Go maps become function maps `κ → Option v`; a `nil` pointer stored
    in a map is `some none`, a missing key is `none`.
  * Block heights (uint64) are modelled as `Nat`: the spec's data model
    (§3) makes heights strictly monotonic from 0, far from 2^64, and no
    claim depends on wrap-around.
  * Fallible external operations (trie update, KV store save) take an
    `Env` of injected failures; a Go panic is modelled as `Option.none`.
-/

namespace Aergo

/-- Opaque 32-byte hash value; the code only tests equality. -/
abbrev Hash := Nat

/-- Opaque 32-byte block identifier (`types.BlockID`); equality only. -/
abbrev BlockID := Nat

/-- Embeds `types.AccountID` as its raw byte sequence, the form in which the
engine compares and sorts account ids (`bytes.Compare(accs[i][:], accs[j][:])`). -/
abbrev AccountID := List Nat

/-- Go's `bytes.Compare`: lexicographic comparison of byte sequences,
a strict prefix comparing smaller. -/
def bytesCompare : List Nat → List Nat → Ordering
  | [], [] => Ordering.eq
  | [], _ :: _ => Ordering.lt
  | _ :: _, [] => Ordering.gt
  | a :: as, b :: bs =>
    if a < b then Ordering.lt
    else if b < a then Ordering.gt
    else bytesCompare as bs

/-- Holds when `bytesCompare a b = -1` in the Go source: strict lexicographic order. -/
def bytesLt (a b : AccountID) : Prop := bytesCompare a b = Ordering.lt

/-- Reflexive closure of `bytesLt`, the order insertion sort works with. -/
def bytesLe (a b : AccountID) : Prop := bytesCompare a b ≠ Ordering.gt

instance : DecidableRel bytesLt := fun a b => by unfold bytesLt; infer_instance

instance : DecidableRel bytesLe := fun a b => by unfold bytesLe; infer_instance

theorem bytesCompare_eq_iff : ∀ a b : List Nat, bytesCompare a b = Ordering.eq ↔ a = b := by
  intro a
  induction a with
  | nil => intro b; cases b <;> simp [bytesCompare]
  | cons x xs ih =>
    intro b
    cases b with
    | nil => simp [bytesCompare]
    | cons y ys =>
      simp only [bytesCompare]
      split_ifs with h1 h2
      · constructor
        · intro h; simp at h
        · intro h; cases h; omega
      · constructor
        · intro h; simp at h
        · intro h; cases h; omega
      · have hxy : x = y := by omega
        subst hxy
        simp [ih ys]

theorem bytesCompare_lt_cons {x y : Nat} {xs ys : List Nat} :
    bytesCompare (x :: xs) (y :: ys) = Ordering.lt ↔
      x < y ∨ (x = y ∧ bytesCompare xs ys = Ordering.lt) := by
  simp only [bytesCompare]
  split_ifs with h1 h2
  · simp [h1]
  · constructor
    · intro h; simp at h
    · intro h; rcases h with h | ⟨h, _⟩ <;> omega
  · have hxy : x = y := by omega
    subst hxy
    simp

theorem bytesCompare_swap : ∀ a b : List Nat, bytesCompare b a = (bytesCompare a b).swap := by
  intro a
  induction a with
  | nil => intro b; cases b <;> rfl
  | cons x xs ih =>
    intro b
    cases b with
    | nil => rfl
    | cons y ys =>
      simp only [bytesCompare]
      rcases Nat.lt_trichotomy x y with h | h | h
      · rw [if_neg (by omega : ¬ y < x), if_pos h, if_pos h]; rfl
      · subst h
        rw [if_neg (lt_irrefl x), if_neg (lt_irrefl x), if_neg (lt_irrefl x),
          if_neg (lt_irrefl x)]
        exact ih ys
      · rw [if_pos h, if_neg (by omega : ¬ x < y), if_pos h]; rfl

theorem bytesCompare_lt_trans : ∀ a b c : List Nat,
    bytesCompare a b = Ordering.lt → bytesCompare b c = Ordering.lt →
    bytesCompare a c = Ordering.lt := by
  intro a
  induction a with
  | nil =>
    intro b c hab hbc
    cases c with
    | nil =>
      cases b with
      | nil => simp [bytesCompare] at hab
      | cons y ys => simp [bytesCompare] at hbc
    | cons z zs => simp [bytesCompare]
  | cons x xs ih =>
    intro b c hab hbc
    cases b with
    | nil => simp [bytesCompare] at hab
    | cons y ys =>
      cases c with
      | nil => simp [bytesCompare] at hbc
      | cons z zs =>
        rw [bytesCompare_lt_cons] at hab hbc ⊢
        rcases hab with h | ⟨h, hab⟩
        · rcases hbc with h2 | ⟨h2, _⟩
          · left; omega
          · left; omega
        · rcases hbc with h2 | ⟨h2, hbc⟩
          · left; omega
          · right; exact ⟨by omega, ih ys zs hab hbc⟩

theorem bytesLt_of_le_of_ne {a b : AccountID} (hle : bytesLe a b) (hne : a ≠ b) :
    bytesLt a b := by
  unfold bytesLe at hle
  unfold bytesLt
  cases h : bytesCompare a b with
  | lt => rfl
  | eq => exact absurd ((bytesCompare_eq_iff a b).mp h) hne
  | gt => exact absurd h hle

instance : IsTotal AccountID bytesLe where
  total := by
    intro a b
    unfold bytesLe
    cases h : bytesCompare a b with
    | lt => left; decide
    | eq => left; decide
    | gt =>
      right
      rw [bytesCompare_swap, h]
      decide

instance : IsTrans AccountID bytesLe where
  trans := by
    intro a b c hab hbc
    unfold bytesLe at *
    intro hac
    cases h1 : bytesCompare a b with
    | gt => exact hab h1
    | eq =>
      have hE : a = b := (bytesCompare_eq_iff a b).mp h1
      subst hE
      exact hbc hac
    | lt =>
      cases h2 : bytesCompare b c with
      | gt => exact hbc h2
      | eq =>
        have hE : b = c := (bytesCompare_eq_iff b c).mp h2
        subst hE
        rw [hac] at h1
        simp at h1
      | lt =>
        have h3 := bytesCompare_lt_trans a b c h1 h2
        rw [hac] at h3
        simp at h3

/-! ## State engine data model (src/state/statedb.go) -/

/-- Modelled from the spec: `types.State` is not under src/. §3 AccountState —
"a small record (e.g., nonce, balance, code-hash). Has a `Hash()` returning 32
bytes; an `IsEmpty()` predicate; and a structural deep-clone operation." -/
structure State where
  nonce : Nat
  balance : Nat
deriving DecidableEq

/-- Modelled from the spec: the structurally empty account state (`types.NewState()`). -/
def State.empty : State := { nonce := 0, balance := 0 }

/-- Modelled from the spec: `IsEmpty()` — the state is structurally empty. -/
def State.IsEmpty (s : State) : Bool := s.nonce == 0 && s.balance == 0

/-- Modelled from the spec: `Hash()` of an account state, an injective digest
of the record (the claims only need it to be a fixed function of the state). -/
def State.getHash (s : State) : Hash := Nat.pair s.nonce s.balance

/-- Hash used by `updateTrie` for an `Undo` pointer (`entry.Undo.GetHash()`).
Modelled from the spec: §4.2 reads the rollback values as "`entry.pre.Hash()`"
where pre "may be the empty state", so a nil `Undo` is charitably modelled as
hashing like the empty state (the `types.State.GetHash` source is not under
src/). None of the settled claims depends on this choice. -/
def undoGetHash : Option State → Hash
  | some s => s.getHash
  | none => State.empty.getHash

/-- Embeds `state.StateEntry`: pair of post (`State`) and pre (`Undo`) account states.
The post pointer is non-nil per spec invariant I4; `Undo` may be Go `nil`. -/
structure StateEntry where
  state : State
  undo : Option State
deriving DecidableEq

/-- Embeds `state.NewStateEntry`: nils out a structurally empty undo state. -/
def NewStateEntry (state : State) (undo : Option State) : StateEntry :=
  { state := state
    undo :=
      match undo with
      | some u => if u.IsEmpty then none else some u
      | none => none }

/-- Embeds `state.BlockInfo`. -/
structure BlockInfo where
  blockNo : Nat
  blockHash : BlockID
  prevHash : BlockID
deriving DecidableEq

/-- Embeds `state.BlockState`: `BlockInfo` plus the touched-account map. The Go map
`map[types.AccountID]*StateEntry` is modelled as an association list whose keys
are unique (a hypothesis where a claim needs it). -/
structure BlockState where
  info : BlockInfo
  accounts : List (AccountID × StateEntry)
deriving DecidableEq

/-- Association-list lookup mirroring a Go map read `bstate.accounts[v]`. -/
def alookup {β : Type} (k : AccountID) : List (AccountID × β) → Option β
  | [] => none
  | p :: l => if p.1 = k then some p.2 else alookup k l

/-- The sparse Merkle trie as the state engine consumes it (§4.1): an
authenticated map from 32-byte keys to value hashes. The root is a
deterministic, collision-free digest of the map, modelled as the map itself;
`commitCount` counts `Commit()` flushes of dirty nodes to the KV store. -/
structure Trie where
  data : AccountID → Option Hash
  commitCount : Nat

/-- Embeds `trie.Update(keys, vals)`: atomically replaces the values at the given
keys (§4.1). -/
def Trie.update (t : Trie) (keys : List AccountID) (vals : List Hash) : Trie :=
  { t with
    data := fun k =>
      match alookup k (keys.zip vals) with
      | some v => some v
      | none => t.data k }

/-- Embeds `trie.Commit()`: flushes dirty nodes to the KV store (§4.1). -/
def Trie.commit (t : Trie) : Trie := { t with commitCount := t.commitCount + 1 }

/-- The trie root (`sdb.trie.Root`), determined by the authenticated map. -/
def Trie.Root (t : Trie) : AccountID → Option Hash := t.data

/-- Failure injection for the external collaborators: the trie's KV-backed
update and the engine's metadata save (`saveStateDB`) may return I/O errors. -/
structure Env where
  trieFail : Bool
  saveFail : Bool
deriving DecidableEq

/-- Embeds `state.ChainStateDB`: in-memory account map, trie, latest pointer, and the
persisted block-state log. A Go map storing a possibly-nil `*types.State` is
`AccountID → Option (Option State)` (`some none` = key present, nil pointer). -/
structure ChainStateDB where
  accounts : AccountID → Option (Option State)
  trie : Trie
  latest : BlockInfo
  blockStates : BlockID → Option BlockState

/-- Embeds `GetHash()`: returns the current trie root. -/
def ChainStateDB.GetHash (sdb : ChainStateDB) : AccountID → Option Hash :=
  sdb.trie.Root

/-- Modelled from the spec: `saveBlockState` is not under src/. §6 — "Each
persisted block-state is stored under its block hash". -/
def saveBlockState (sdb : ChainStateDB) (bs : BlockState) : ChainStateDB :=
  { sdb with
    blockStates := fun h => if h = bs.info.blockHash then some bs else sdb.blockStates h }

/-- Modelled from the spec: `loadBlockState` is not under src/: reads the
persisted block-state stored under the given block hash (`none` = KV miss). -/
def loadBlockState (sdb : ChainStateDB) (h : BlockID) : Option BlockState :=
  sdb.blockStates h

/-- One Go-map write fold: `accounts[k] = f(entry)` for each touched account. -/
def writeAll (f : StateEntry → Option State)
    (m : AccountID → Option (Option State)) (l : List (AccountID × StateEntry)) :
    AccountID → Option (Option State) :=
  l.foldl (fun m p => fun k => if k = p.1 then some (f p.2) else m k) m

/-- The `Apply` loop `sdb.accounts[k] = v.State` over all touched accounts. -/
def putAll (m : AccountID → Option (Option State)) (l : List (AccountID × StateEntry)) :
    AccountID → Option (Option State) :=
  writeAll (fun e => some e.state) m l

/-- The `Rollback` loop `sdb.accounts[k] = v.Undo` over all touched accounts
(the stored pointer may be Go `nil`). -/
def undoAll (m : AccountID → Option (Option State)) (l : List (AccountID × StateEntry)) :
    AccountID → Option (Option State) :=
  writeAll (fun e => e.undo) m l

/-- The sorted key list `updateTrie` builds: the touched account ids in
ascending `bytes.Compare` order (`sort.Slice` with `Compare == -1`; the Go map
keys are unique, so the sorted permutation is unique). -/
def updateTrieKeys (bs : BlockState) : List AccountID :=
  List.insertionSort bytesLe (bs.accounts.map Prod.fst)

/-- The value `updateTrie` pairs with key `k`: `accounts[k].Undo.GetHash()` on
the undo pass, `accounts[k].State.GetHash()` otherwise. The `none` default is
unreachable: `updateTrie` only evaluates this at keys of `bs.accounts`. -/
def trieEntryVal (bs : BlockState) (undo : Bool) (k : AccountID) : Hash :=
  match alookup k bs.accounts with
  | some e => if undo then undoGetHash e.undo else e.state.getHash
  | none => 0

/-- Embeds `ChainStateDB.updateTrie` (statedb.go:193-222). Returns the engine after
the call together with the returned error, mirroring in-place mutation: an
early error return leaves whatever was already mutated. Note the source's
`Commit()` on line 220 is dead code: `size <= 0` returns on line 197 and
`size > 0` returns on line 218. -/
def updateTrie (env : Env) (sdb : ChainStateDB) (bs : BlockState) (undo : Bool) :
    ChainStateDB × Option String :=
  let size := bs.accounts.length
  if size ≤ 0 then
    (sdb, none)
  else
    let keys := updateTrieKeys bs
    let vals := keys.map (trieEntryVal bs undo)
    if 0 < size then
      if env.trieFail then (sdb, some "trie update failed")
      else ({ sdb with trie := sdb.trie.update keys vals }, none)
    else
      ({ sdb with trie := sdb.trie.commit }, none)

/-- Embeds `ChainStateDB.revertTrie` (statedb.go:224-227). -/
def revertTrie (env : Env) (sdb : ChainStateDB) (bs : BlockState) :
    ChainStateDB × Option String :=
  updateTrie env sdb bs true

/-- Modelled from the spec: `saveStateDB` is not under src/: persists engine
metadata to the KV store; observable in-memory state is unchanged, and the
write can fail with an I/O error (injected through `Env`). -/
def saveStateDB (env : Env) (sdb : ChainStateDB) : ChainStateDB × Option String :=
  if env.saveFail then (sdb, some "saveStateDB failed") else (sdb, none)

/-- Embeds `ChainStateDB.Apply` (statedb.go:229-252), with the post-call engine
returned alongside the error. -/
def Apply (env : Env) (sdb : ChainStateDB) (bs : BlockState) :
    ChainStateDB × Option String :=
  if sdb.latest.blockNo + 1 ≠ bs.info.blockNo then
    (sdb, some "Failed to apply: invalid block no")
  else if sdb.latest.blockHash ≠ bs.info.prevHash then
    (sdb, some "Failed to apply: invalid previous block")
  else
    let sdb1 := saveBlockState sdb bs
    let sdb2 := { sdb1 with accounts := putAll sdb1.accounts bs.accounts }
    match updateTrie env sdb2 bs false with
    | (sdb3, some e) => (sdb3, some e)
    | (sdb3, none) =>
      let sdb4 := { sdb3 with latest := bs.info }
      saveStateDB env sdb4

/-- The loop of `ChainStateDB.Rollback` (statedb.go:262-286): `for
target.BlockNo >= blockNo` with an inner break at `target.BlockNo == blockNo`.
The Go loop has no structural termination measure (a corrupt block-state log
can make it diverge), so the embedding carries fuel; with a consistent log the
fuel provided by `Rollback` below is never exhausted. The freshly built target
has `PrevHash` left at its zero value, as in the source. -/
def rollbackLoop (env : Env) :
    Nat → ChainStateDB → BlockInfo → Nat → ChainStateDB × Option String
  | 0, sdb, _, _ => (sdb, some "rollback loop diverges")
  | fuel + 1, sdb, target, blockNo =>
    if blockNo ≤ target.blockNo then
      match loadBlockState sdb target.blockHash with
      | none => (sdb, some "failed to load block state")
      | some bs =>
        if target.blockNo = blockNo then
          ({ sdb with latest := bs.info }, none)
        else
          match revertTrie env
              { sdb with
                latest := bs.info
                accounts := undoAll sdb.accounts bs.accounts } bs with
          | (sdb3, some e) => (sdb3, some e)
          | (sdb3, none) =>
            rollbackLoop env fuel sdb3
              { blockNo := sdb3.latest.blockNo - 1
                blockHash := sdb3.latest.prevHash
                prevHash := 0 }
              blockNo
    else
      (sdb, none)

/-- Embeds `ChainStateDB.Rollback` (statedb.go:254-289). -/
def Rollback (env : Env) (sdb : ChainStateDB) (blockNo : Nat) :
    ChainStateDB × Option String :=
  if sdb.latest.blockNo ≤ blockNo then
    (sdb, some "Failed to rollback: invalid block no")
  else
    match rollbackLoop env (sdb.latest.blockNo + 1) sdb sdb.latest blockNo with
    | (sdb1, some e) => (sdb1, some e)
    | (sdb1, none) => saveStateDB env sdb1

/-- The trie change a single `updateTrie` call makes when no I/O failure is
injected: nothing for an empty account set, otherwise the sorted-key update. -/
def trieStep (t : Trie) (bs : BlockState) (undo : Bool) : Trie :=
  if bs.accounts.length ≤ 0 then t
  else t.update (updateTrieKeys bs) ((updateTrieKeys bs).map (trieEntryVal bs undo))

/-- Consistency of the persisted block-state log (spec invariants I2-I4):
walking back from the block at height `no` with the given hash, every block
down to genesis is stored under its hash with a matching number. -/
def chainOkB (log : BlockID → Option BlockState) : Nat → BlockID → Bool
  | 0, h =>
    match log h with
    | some bs => bs.info.blockNo == 0 && bs.info.blockHash == h
    | none => false
  | no + 1, h =>
    match log h with
    | some bs =>
      bs.info.blockNo == no + 1 && bs.info.blockHash == h
        && chainOkB log no bs.info.prevHash
    | none => false

/-- The stored block states reachable from the block with the given hash by
following `prevHash` links, newest first, `k` of them. -/
def chainList (log : BlockID → Option BlockState) : Nat → BlockID → List BlockState
  | 0, _ => []
  | k + 1, h =>
    match log h with
    | some bs => bs :: chainList log k bs.info.prevHash
    | none => []

/-- Folding the `Rollback` account loop over a list of block states, newest
first: each touched account is set back to its recorded pre (`Undo`) state. -/
def revertAccountsF (m : AccountID → Option (Option State)) (l : List BlockState) :
    AccountID → Option (Option State) :=
  l.foldl (fun m bs => undoAll m bs.accounts) m

/-- Folding the `revertTrie` undo update over a list of block states, newest
first. -/
def revertTrieF (t : Trie) (l : List BlockState) : Trie :=
  l.foldl (fun t bs => trieStep t bs true) t

/-! ## Peer manager and p2p operations (src/p2p, src/unnamed/part_001) -/

/-- Modelled from the spec: `types.PeerState` is not under src/. §4.3 state
machine of a peer: CONNECTING → HANDSHAKING → RUNNING → STOPPING. -/
inductive PeerState
  | CONNECTING
  | HANDSHAKING
  | RUNNING
  | STOPPING
deriving DecidableEq

/-- Modelled from the spec: the `RemotePeer` struct is not under src/; the
p2p operations under src/ read only its identity and its state. -/
structure RemotePeer where
  id : Nat
  state : PeerState
deriving DecidableEq

/-- Protocol id of `newBlock/notice` (spec §6 message catalogue; the constant
declaration is not under src/). -/
def newBlockNotice : String := "newBlock/notice"

/-- Protocol id of `newTX/notice` (spec §6 message catalogue). -/
def newTxNotice : String := "newTX/notice"

/-- Protocol id of `getMissing/req` (spec §6 message catalogue). -/
def getMissingRequest : String := "getMissing/req"

/-- The protocol-specific bodies the claims touch (payload shapes are opaque
per spec §6; only which fields are filled matters here). -/
inductive MsgPayload
  | blockNotice (blockHash : List Nat) (blockNo : Nat)
  | txNotice (txHashes : List (List Nat))
  | missingReq (hashes : List (List Nat)) (stophash : List Nat)
deriving DecidableEq

/-- A message order handed to a peer's send queue: protocol id plus body. -/
structure MsgOrder where
  protocolID : String
  payload : MsgPayload
deriving DecidableEq

/-- Modelled from the spec: `newPbMsgBroadcastOrder` is not under src/; it
wraps a body and protocol id into a send-queue order. -/
def newPbMsgBroadcastOrder (_expectResponse : Bool) (protocolID : String)
    (payload : MsgPayload) : MsgOrder :=
  { protocolID := protocolID, payload := payload }

/-- Modelled from the spec: `newPbMsgRequestOrder` is not under src/. -/
def newPbMsgRequestOrder (_expectResponse _gossip : Bool) (protocolID : String)
    (payload : MsgPayload) : MsgOrder :=
  { protocolID := protocolID, payload := payload }

/-- Embeds `P2P.NotifyNewBlock` (actorwork.go:66-85): walk the `GetPeers()` snapshot
and enqueue a `NewBlockNotice` to each peer whose state is RUNNING; other
peers are skipped. Returns the list of (peer id, order) enqueues. The source's
`neighbor == nil` guard is dead in the model: `insertPeer` only ever stores
freshly constructed peers, so the snapshot holds no nil entries. -/
def NotifyNewBlock : List RemotePeer → List Nat → Nat → List (Nat × MsgOrder)
  | [], _, _ => []
  | p :: ps, h, no =>
    if p.state = PeerState.RUNNING then
      (p.id, newPbMsgBroadcastOrder false newBlockNotice (MsgPayload.blockNotice h no))
        :: NotifyNewBlock ps h no
    else
      NotifyNewBlock ps h no

/-- Embeds `P2P.NotifyNewTX` (actorwork.go:140-156): enqueue a
`NewTransactionsNotice` carrying the tx hashes to every peer of the
`GetPeers()` snapshot — note: no check of the peer state, and the order is
built with the `newBlockNotice` protocol id, exactly as in the source. -/
def NotifyNewTX : List RemotePeer → List (List Nat) → List (Nat × MsgOrder)
  | [], _ => []
  | p :: ps, hashes =>
    (p.id, newPbMsgBroadcastOrder false newBlockNotice (MsgPayload.txNotice hashes))
      :: NotifyNewTX ps hashes

/-- Embeds `P2P.GetMissingBlocks` (actorwork.go:88-108). Here `none` models a Go panic:
for an empty input list the source evaluates `bhashes[1:]` and `bhashes[0]`
on an empty slice, which panics with an out-of-range slice bound. -/
def GetMissingBlocks (peers : List RemotePeer) (peerID : Nat)
    (hashes : List (List Nat)) : Option (Bool × List (Nat × MsgOrder)) :=
  match peers.find? (fun p => p.id == peerID) with
  | none => some (false, [])
  | some p =>
    match hashes with
    | [] => none
    | h0 :: rest =>
      some (true,
        [(p.id, newPbMsgRequestOrder false true getMissingRequest
            (MsgPayload.missingReq rest h0))])

/-- The fields of `types.MessageData` that `AuthenticateMessage` would read
(spec §6 wire framing). -/
structure MessageData where
  peerID : List Nat
  nodePubKey : List Nat
  sign : List Nat
deriving DecidableEq

/-- Embeds `peerManager.AuthenticateMessage` (part_001:669-698). The source
short-circuits to `true` on its first statement (commented "for Test only");
everything after the `return true` — the marshalling, the peer-id decoding and
the `VerifyData` call — is unreachable, so the embedding is the constant. -/
def AuthenticateMessage (_message : List Nat) (_data : MessageData) : Bool :=
  true

/-- Embeds `DefaultGlobalInvCacheSize` (part_001:47). -/
def DefaultGlobalInvCacheSize : Nat := 100

/-- The notice-dedup LRU (`invCache`), an external collaborator modelled per
spec §4.3: a bounded cache from block-hash key to block-hash value. -/
structure LruCache where
  entries : List (Nat × Nat)
  cap : Nat
deriving DecidableEq

/-- Embeds `lru.Cache.ContainsOrAdd`: reports whether the key is present without
touching it; if absent, inserts it, evicting the oldest entry beyond the
capacity bound. -/
def LruCache.containsOrAdd (c : LruCache) (k v : Nat) : Bool × LruCache :=
  if c.entries.any (fun e => e.1 == k) then (true, c)
  else (false, { c with entries := ((k, v) :: c.entries).take c.cap })

/-- Embeds the `types.NewBlockNotice` body as `HandleNewBlockNotice` reads it. -/
structure NewBlockNoticeData where
  blockHash : Nat
  blockNo : Nat
deriving DecidableEq

/-- The possible outcomes of the `CallRequest(ChainSvc, GetBlock)` round trip
in `HandleNewBlockNotice`: the hub errs, the reply has an unexpected type,
or it is a `GetBlockRsp` whose `Err` is nil (found) or non-nil (not found). -/
inductive ChainResp
  | found
  | notFound
  | callError
  | badType
deriving DecidableEq

/-- A request the peer manager issues while handling a block notice. -/
inductive PMRequest
  | getBlock (blockHash : Nat)
  | getBlockInfos (toWhom : Nat) (blockHash : Nat)
deriving DecidableEq

/-- Embeds `peerManager.HandleNewBlockNotice` (part_001:780-806): consult-and-insert
on the dedup cache; on a hit drop silently; on a miss ask the chain service
for the block (`GetBlock`), and if the chain service answers that the block
is not found, send a `GetBlockInfos` request back to the notifying peer.
Returns the updated cache and the requests issued, in order. -/
def HandleNewBlockNotice (c : LruCache) (chainResp : ChainResp) (peerID : Nat)
    (data : NewBlockNoticeData) : LruCache × List PMRequest :=
  match c.containsOrAdd data.blockHash data.blockHash with
  | (true, c1) => (c1, [])
  | (false, c1) =>
    match chainResp with
    | ChainResp.callError => (c1, [PMRequest.getBlock data.blockHash])
    | ChainResp.badType => (c1, [PMRequest.getBlock data.blockHash])
    | ChainResp.found => (c1, [PMRequest.getBlock data.blockHash])
    | ChainResp.notFound =>
      (c1, [PMRequest.getBlock data.blockHash,
            PMRequest.getBlockInfos peerID data.blockHash])

/-! ## Helper lemmas -/

theorem writeAll_not_mem (f : StateEntry → Option State) :
    ∀ (l : List (AccountID × StateEntry)) (m : AccountID → Option (Option State))
      (k : AccountID), k ∉ l.map Prod.fst → writeAll f m l k = m k := by
  intro l
  induction l with
  | nil => intro m k _; rfl
  | cons p l ih =>
    intro m k hk
    simp only [List.map_cons, List.mem_cons] at hk
    push_neg at hk
    simp only [writeAll, List.foldl_cons]
    have := ih (fun k => if k = p.1 then some (f p.2) else m k) k hk.2
    simp only [writeAll] at this
    rw [this, if_neg hk.1]

theorem writeAll_mem (f : StateEntry → Option State) :
    ∀ (l : List (AccountID × StateEntry)) (m : AccountID → Option (Option State))
      (k : AccountID) (e : StateEntry),
      (l.map Prod.fst).Nodup → (k, e) ∈ l → writeAll f m l k = some (f e) := by
  intro l
  induction l with
  | nil => intro m k e _ h; simp at h
  | cons p l ih =>
    intro m k e hnd hmem
    simp only [List.map_cons, List.nodup_cons] at hnd
    simp only [writeAll, List.foldl_cons]
    rcases List.mem_cons.mp hmem with heq | htail
    · have hk : p.1 = k := by rw [← heq]
      have hnk : k ∉ l.map Prod.fst := by rw [← hk]; exact hnd.1
      have := writeAll_not_mem f l (fun k => if k = p.1 then some (f p.2) else m k) k hnk
      simp only [writeAll] at this
      rw [this, if_pos hk.symm, ← heq]
    · have := ih (fun k => if k = p.1 then some (f p.2) else m k) k e hnd.2 htail
      simp only [writeAll] at this
      rw [this]

theorem alookup_mem {β : Type} :
    ∀ (l : List (AccountID × β)) (k : AccountID) (e : β),
      (l.map Prod.fst).Nodup → (k, e) ∈ l → alookup k l = some e := by
  intro l
  induction l with
  | nil => intro k e _ h; simp at h
  | cons p l ih =>
    intro k e hnd hmem
    simp only [List.map_cons, List.nodup_cons] at hnd
    rcases List.mem_cons.mp hmem with heq | htail
    · rw [← heq]
      simp [alookup]
    · have hne : p.1 ≠ k := by
        intro hk
        exact hnd.1 (hk ▸ (List.mem_map.mpr ⟨(k, e), htail, rfl⟩))
      simp only [alookup, if_neg hne]
      exact ih k e hnd.2 htail

theorem alookup_not_mem {β : Type} :
    ∀ (l : List (AccountID × β)) (k : AccountID),
      k ∉ l.map Prod.fst → alookup k l = none := by
  intro l
  induction l with
  | nil => intro k _; rfl
  | cons p l ih =>
    intro k hk
    simp only [List.map_cons, List.mem_cons] at hk
    push_neg at hk
    simp only [alookup, if_neg (Ne.symm hk.1)]
    exact ih k hk.2

theorem alookup_zip_map (f : AccountID → Hash) :
    ∀ (keys : List AccountID) (k : AccountID),
      alookup k (keys.zip (keys.map f)) = if k ∈ keys then some (f k) else none := by
  intro keys
  induction keys with
  | nil => intro k; simp [alookup]
  | cons a keys ih =>
    intro k
    simp only [List.map_cons, List.zip_cons_cons, alookup]
    by_cases hak : a = k
    · subst hak
      simp
    · rw [if_neg hak]
      have hI := ih k
      simp only [List.zip] at hI ⊢
      rw [hI]
      by_cases hk : k ∈ keys
      · rw [if_pos hk, if_pos (List.mem_cons.mpr (Or.inr hk))]
      · rw [if_neg hk, if_neg (fun hc => by
          rcases List.mem_cons.mp hc with h1 | h1
          · exact hak h1.symm
          · exact hk h1)]

theorem trie_update_map_data (t : Trie) (keys : List AccountID) (f : AccountID → Hash)
    (k : AccountID) :
    (t.update keys (keys.map f)).data k = if k ∈ keys then some (f k) else t.data k := by
  simp only [Trie.update, alookup_zip_map]
  by_cases hk : k ∈ keys
  · rw [if_pos hk]; simp [if_pos hk]
  · rw [if_neg hk]; simp [if_neg hk]

theorem trie_update_commitCount (t : Trie) (keys : List AccountID) (vals : List Hash) :
    (t.update keys vals).commitCount = t.commitCount := rfl

/-- With no injected trie failure, `updateTrie` succeeds and performs exactly
the `trieStep` change. -/
theorem updateTrie_ok (env : Env) (sdb : ChainStateDB) (bs : BlockState) (undo : Bool)
    (hTF : env.trieFail = false) :
    updateTrie env sdb bs undo = ({ sdb with trie := trieStep sdb.trie bs undo }, none) := by
  simp only [updateTrie, trieStep]
  by_cases hlen : bs.accounts.length ≤ 0
  · rw [if_pos hlen, if_pos hlen]
  · rw [if_neg hlen, if_neg hlen, if_pos (by omega), hTF]
    simp

/-- Unpacking one level of log consistency. -/
theorem chainOkB_elim (log : BlockID → Option BlockState) (no : Nat) (h : BlockID)
    (hok : chainOkB log no h = true) :
    ∃ bs, log h = some bs ∧ bs.info.blockNo = no ∧ bs.info.blockHash = h ∧
      (no = 0 ∨ chainOkB log (no - 1) bs.info.prevHash = true) := by
  cases no with
  | zero =>
    simp only [chainOkB] at hok
    cases hlog : log h with
    | none => rw [hlog] at hok; simp at hok
    | some bs =>
      rw [hlog] at hok
      simp only [Bool.and_eq_true, beq_iff_eq] at hok
      exact ⟨bs, rfl, hok.1, hok.2, Or.inl rfl⟩
  | succ m =>
    simp only [chainOkB] at hok
    cases hlog : log h with
    | none => rw [hlog] at hok; simp at hok
    | some bs =>
      rw [hlog] at hok
      simp only [Bool.and_eq_true, beq_iff_eq] at hok
      exact ⟨bs, rfl, hok.1.1, hok.1.2, Or.inr (by simpa using hok.2)⟩

/-- Behaviour of the `Rollback` loop on a consistent log with no injected
I/O failure: starting at the block `t` of height `targetNo + k`, it reverts
the `k` stored block states from `t` down to height `targetNo + 1` (newest
first), loads the block state at height `targetNo` and stops there, keeping
it un-reverted. -/
theorem rollbackLoop_spec (env : Env) (log : BlockID → Option BlockState)
    (hTF : env.trieFail = false) :
    ∀ (k fuel : Nat) (sdb : ChainStateDB) (t : BlockInfo) (targetNo : Nat),
      sdb.blockStates = log →
      chainOkB log t.blockNo t.blockHash = true →
      t.blockNo = targetNo + k →
      k < fuel →
      (rollbackLoop env fuel sdb t targetNo).2 = none ∧
      (rollbackLoop env fuel sdb t targetNo).1.accounts
        = revertAccountsF sdb.accounts (chainList log k t.blockHash) ∧
      (rollbackLoop env fuel sdb t targetNo).1.trie
        = revertTrieF sdb.trie (chainList log k t.blockHash) ∧
      (rollbackLoop env fuel sdb t targetNo).1.blockStates = log ∧
      (rollbackLoop env fuel sdb t targetNo).1.latest.blockNo = targetNo := by
  intro k
  induction k with
  | zero =>
    intro fuel sdb t targetNo hlog hok ht hfuel
    obtain ⟨f, rfl⟩ : ∃ f, fuel = f + 1 := ⟨fuel - 1, by omega⟩
    obtain ⟨bs, hbs, hno, hhash, _⟩ := chainOkB_elim log t.blockNo t.blockHash hok
    have hload : loadBlockState sdb t.blockHash = some bs := by
      rw [loadBlockState, hlog, hbs]
    simp only [rollbackLoop, hload]
    rw [if_pos (by omega : targetNo ≤ t.blockNo),
      if_pos (by omega : t.blockNo = targetNo)]
    refine ⟨rfl, ?_, ?_, ?_, ?_⟩
    · simp [chainList, revertAccountsF]
    · simp [chainList, revertTrieF]
    · exact hlog
    · show bs.info.blockNo = targetNo
      omega
  | succ k ih =>
    intro fuel sdb t targetNo hlog hok ht hfuel
    obtain ⟨f, rfl⟩ : ∃ f, fuel = f + 1 := ⟨fuel - 1, by omega⟩
    obtain ⟨bs, hbs, hno, hhash, hrest⟩ := chainOkB_elim log t.blockNo t.blockHash hok
    have hrest2 : chainOkB log (t.blockNo - 1) bs.info.prevHash = true := by
      rcases hrest with h0 | h
      · omega
      · exact h
    have hload : loadBlockState sdb t.blockHash = some bs := by
      rw [loadBlockState, hlog, hbs]
    have hchain : chainList log (k + 1) t.blockHash
        = bs :: chainList log k bs.info.prevHash := by
      simp [chainList, hbs]
    have hstep : rollbackLoop env (f + 1) sdb t targetNo
        = rollbackLoop env f
            { sdb with
              latest := bs.info
              accounts := undoAll sdb.accounts bs.accounts
              trie := trieStep sdb.trie bs true }
            { blockNo := bs.info.blockNo - 1
              blockHash := bs.info.prevHash
              prevHash := 0 }
            targetNo := by
      simp only [rollbackLoop, hload]
      rw [if_pos (by omega : targetNo ≤ t.blockNo),
        if_neg (by omega : ¬ t.blockNo = targetNo),
        revertTrie, updateTrie_ok env _ bs true hTF]
    rw [hstep]
    have hres := ih f
      { sdb with
        latest := bs.info
        accounts := undoAll sdb.accounts bs.accounts
        trie := trieStep sdb.trie bs true }
      { blockNo := bs.info.blockNo - 1
        blockHash := bs.info.prevHash
        prevHash := 0 }
      targetNo hlog
      (show chainOkB log (bs.info.blockNo - 1) bs.info.prevHash = true by
        rw [hno]; exact hrest2)
      (show bs.info.blockNo - 1 = targetNo + k by omega)
      (by omega)
    refine ⟨hres.1, ?_, ?_, hres.2.2.2.1, hres.2.2.2.2⟩
    · rw [hres.2.1, hchain]
      have hk : bs.info.blockNo - 1 = t.blockNo - 1 := by omega
      simp [revertAccountsF]
    · rw [hres.2.2.1, hchain]
      simp [revertTrieF]

/-- On a consistent log, the `k` block states hanging from height
`targetNo + k` carry exactly the heights `targetNo + k, …, targetNo + 1`,
in descending order. -/
theorem chainList_blockNos (log : BlockID → Option BlockState) :
    ∀ (k : Nat) (h : BlockID) (targetNo : Nat),
      chainOkB log (targetNo + k) h = true →
      (chainList log k h).map (fun bs => bs.info.blockNo)
        = (List.range' (targetNo + 1) k).reverse := by
  intro k
  induction k with
  | zero => intro h targetNo _; simp [chainList]
  | succ k ih =>
    intro h targetNo hok
    obtain ⟨bs, hbs, hno, _, hrest⟩ := chainOkB_elim log (targetNo + (k + 1)) h hok
    have hrest2 : chainOkB log (targetNo + k) bs.info.prevHash = true := by
      rcases hrest with h0 | hr
      · omega
      · simpa using hr
    simp only [chainList, hbs, List.map_cons]
    rw [ih bs.info.prevHash targetNo hrest2, List.range'_1_concat, List.reverse_append]
    simp [hno]
    omega

/-- A valid `Apply` with no injected I/O failure: persists the block state,
writes all post states into the account map, updates the trie over the sorted
key set and advances `latest`. -/
theorem Apply_ok (env : Env) (sdb : ChainStateDB) (bs : BlockState)
    (hTF : env.trieFail = false) (hSF : env.saveFail = false)
    (hNo : bs.info.blockNo = sdb.latest.blockNo + 1)
    (hPrev : bs.info.prevHash = sdb.latest.blockHash) :
    Apply env sdb bs
      = ({ sdb with
            accounts := putAll sdb.accounts bs.accounts
            trie := trieStep sdb.trie bs false
            latest := bs.info
            blockStates := fun h =>
              if h = bs.info.blockHash then some bs else sdb.blockStates h },
        none) := by
  simp only [Apply, saveBlockState]
  rw [if_neg (by omega),
    if_neg (show ¬ sdb.latest.blockHash ≠ bs.info.prevHash by simp [hPrev]),
    updateTrie_ok env _ bs false hTF]
  simp [saveStateDB, hSF]

/-- A `Rollback` by exactly one block on an engine whose log contains the
latest block state and its predecessor: one revert pass runs, then the loop
loads the predecessor and stops. -/
theorem Rollback_one (env : Env) (s : ChainStateDB) (n : Nat) (bs bsp : BlockState)
    (hTF : env.trieFail = false) (hSF : env.saveFail = false)
    (hlatest : s.latest = bs.info)
    (hno : bs.info.blockNo = n + 1)
    (hload1 : s.blockStates bs.info.blockHash = some bs)
    (hload2 : s.blockStates bs.info.prevHash = some bsp) :
    Rollback env s n
      = ({ s with
            accounts := undoAll s.accounts bs.accounts
            trie := trieStep s.trie bs true
            latest := bsp.info }, none) := by
  simp only [Rollback, hlatest, hno]
  rw [if_neg (by omega)]
  simp only [rollbackLoop, loadBlockState, hload1]
  rw [if_pos (by omega), if_neg (by omega : ¬ bs.info.blockNo = n),
    revertTrie, updateTrie_ok env _ bs true hTF]
  simp [hno, Nat.add_sub_cancel, hload2, saveStateDB, hSF]

/-- Undoing exactly the recorded pre states restores an account map in which
each touched key held its recorded `Undo` value. -/
theorem undoAll_putAll_restore (m : AccountID → Option (Option State))
    (l : List (AccountID × StateEntry)) (hND : (l.map Prod.fst).Nodup)
    (hAcc : ∀ p ∈ l, m p.1 = some p.2.undo) :
    undoAll (putAll m l) l = m := by
  funext k
  by_cases hk : k ∈ l.map Prod.fst
  · obtain ⟨p, hp, hpk⟩ := List.mem_map.mp hk
    have hmem : (k, p.2) ∈ l := by
      have hkp : (k, p.2) = p := Prod.ext hpk.symm rfl
      rw [hkp]; exact hp
    rw [undoAll, writeAll_mem _ l _ k p.2 hND hmem, ← hpk]
    exact (hAcc p hp).symm
  · rw [undoAll, writeAll_not_mem _ l _ k hk, putAll, writeAll_not_mem _ l _ k hk]

/-- The undo trie pass writes back exactly the hashes the trie already held
at the touched keys, provided those matched the recorded `Undo` hashes. -/
theorem trieStep_undo_restore (t : Trie) (bs : BlockState)
    (hND : (bs.accounts.map Prod.fst).Nodup)
    (hTrie : ∀ p ∈ bs.accounts, t.data p.1 = some (undoGetHash p.2.undo)) :
    (trieStep (trieStep t bs false) bs true).data = t.data := by
  funext k
  by_cases hlen : bs.accounts.length ≤ 0
  · simp only [trieStep, if_pos hlen]
  · simp only [trieStep, if_neg hlen, trie_update_map_data]
    by_cases hk : k ∈ updateTrieKeys bs
    · rw [if_pos hk]
      have hk2 : k ∈ bs.accounts.map Prod.fst := by
        simpa [updateTrieKeys] using hk
      obtain ⟨p, hp, hpk⟩ := List.mem_map.mp hk2
      have hmem : (k, p.2) ∈ bs.accounts := by
        have hkp : (k, p.2) = p := Prod.ext hpk.symm rfl
        rw [hkp]; exact hp
      have hl : alookup k bs.accounts = some p.2 := alookup_mem bs.accounts k p.2 hND hmem
      have ht := hTrie p hp
      rw [hpk] at ht
      rw [trieEntryVal, hl, ht]
      simp
    · rw [if_neg hk, if_neg hk]

/-- Lemma: `trieStep` never touches the commit counter. -/
theorem trieStep_commitCount (t : Trie) (bs : BlockState) (undo : Bool) :
    (trieStep t bs undo).commitCount = t.commitCount := by
  simp only [trieStep]
  by_cases hlen : bs.accounts.length ≤ 0
  · rw [if_pos hlen]
  · rw [if_neg hlen]; rfl

/-! ## Concrete engines and block states used as witness inputs -/

def acct1 : AccountID := [1]
def acct2 : AccountID := [2]
def acct3 : AccountID := [1, 2]

def sOld : State := { nonce := 1, balance := 100 }
def sNew : State := { nonce := 2, balance := 70 }

def envOk : Env := { trieFail := false, saveFail := false }
def envSaveFail : Env := { trieFail := false, saveFail := true }

def gBS : BlockState :=
  { info := { blockNo := 0, blockHash := 7, prevHash := 0 }, accounts := [] }

def bs1 : BlockState :=
  { info := { blockNo := 1, blockHash := 9, prevHash := 7 }
    accounts := [(acct1, { state := sOld, undo := none })] }

def bs2 : BlockState :=
  { info := { blockNo := 2, blockHash := 11, prevHash := 9 }
    accounts := [(acct1, { state := sNew, undo := some sOld })] }

def log2 : BlockID → Option BlockState := fun h =>
  if h = 7 then some gBS
  else if h = 9 then some bs1
  else if h = 11 then some bs2
  else none

/-- An engine that has applied `bs1` then `bs2` on top of genesis. -/
def engine2 : ChainStateDB :=
  { accounts := fun k => if k = acct1 then some (some sNew) else none
    trie :=
      { data := fun k => if k = acct1 then some sNew.getHash else none
        commitCount := 0 }
    latest := { blockNo := 2, blockHash := 11, prevHash := 9 }
    blockStates := log2 }

/-- A fresh engine directly after `SetGenesis`. -/
def engine0 : ChainStateDB :=
  { accounts := fun _ => none
    trie := { data := fun _ => none, commitCount := 0 }
    latest := { blockNo := 0, blockHash := 7, prevHash := 0 }
    blockStates := fun h => if h = 7 then some gBS else none }

/-- An engine that has applied `bs1` on top of genesis. -/
def engine1 : ChainStateDB :=
  { accounts := fun k => if k = acct1 then some (some sOld) else none
    trie :=
      { data := fun k => if k = acct1 then some sOld.getHash else none
        commitCount := 0 }
    latest := { blockNo := 1, blockHash := 9, prevHash := 7 }
    blockStates := fun h => if h = 7 then some gBS else if h = 9 then some bs1 else none }

/-! ## Claim C1 -/

/-- C1 (amended): when `Apply` rejects a block state for a height or
prev-hash mismatch, it errs with the engine observably unchanged; the other
error sources named by the claim do not leave the state unchanged — see the
counterexample `apply_save_failure_mutates_engine`. -/
theorem apply_mismatch_leaves_engine_unchanged (env : Env) (sdb : ChainStateDB)
    (bs : BlockState)
    (h : sdb.latest.blockNo + 1 ≠ bs.info.blockNo ∨
      sdb.latest.blockHash ≠ bs.info.prevHash) :
    (Apply env sdb bs).1 = sdb ∧ (Apply env sdb bs).2.isSome = true := by
  simp only [Apply]
  by_cases h1 : sdb.latest.blockNo + 1 ≠ bs.info.blockNo
  · rw [if_pos h1]
    exact ⟨rfl, rfl⟩
  · rw [if_neg h1]
    have h2 : sdb.latest.blockHash ≠ bs.info.prevHash := by tauto
    rw [if_pos h2]
    exact ⟨rfl, rfl⟩

/-- C1 witness: `bs1` (height 1) against the height-2 engine is a height
mismatch; `Apply` errs and hands back the engine untouched. -/
theorem apply_mismatch_leaves_engine_unchanged_witness :
    (engine2.latest.blockNo + 1 ≠ bs1.info.blockNo ∨
      engine2.latest.blockHash ≠ bs1.info.prevHash) ∧
    (Apply envOk engine2 bs1).1 = engine2 ∧
    (Apply envOk engine2 bs1).2.isSome = true := by
  refine ⟨Or.inl (by decide), ?_, ?_⟩
  · exact (apply_mismatch_leaves_engine_unchanged envOk engine2 bs1 (Or.inl (by decide))).1
  · exact (apply_mismatch_leaves_engine_unchanged envOk engine2 bs1 (Or.inl (by decide))).2

/-- C1 counterexample: a perfectly valid block state applied under an
injected KV-store save failure — `Apply` returns the error, yet `latest` has
advanced, the account map holds the new post state and the trie root has
changed, refuting "the engine's observable state is unchanged" for KV-store
errors. -/
theorem apply_save_failure_mutates_engine :
    (Apply envSaveFail engine1 bs2).2.isSome = true ∧
    (Apply envSaveFail engine1 bs2).1.latest ≠ engine1.latest ∧
    (Apply envSaveFail engine1 bs2).1.accounts acct1 ≠ engine1.accounts acct1 ∧
    (Apply envSaveFail engine1 bs2).1.GetHash acct1 ≠ engine1.GetHash acct1 := by
  refine ⟨?_, ?_, ?_, ?_⟩ <;> decide

/-! ## Claim C3 -/

/-- C3 counterexample: an account created by the applied block (stored with a
null `Undo`) is not restored by `Apply` then `Rollback(bs.no - 1)`: the
engine ends with an explicit nil entry in the account map where the key was
absent before, and a trie entry where the trie had none, so neither the
account map nor the trie root regain their pre-Apply values. -/
theorem apply_rollback_not_restored_for_created_account :
    (Apply envOk engine0 bs1).2 = none ∧
    (Rollback envOk (Apply envOk engine0 bs1).1 0).2 = none ∧
    (Rollback envOk (Apply envOk engine0 bs1).1 0).1.accounts acct1
      ≠ engine0.accounts acct1 ∧
    (Rollback envOk (Apply envOk engine0 bs1).1 0).1.GetHash acct1
      ≠ engine0.GetHash acct1 := by
  refine ⟨?_, ?_, ?_, ?_⟩ <;> decide

/-- C3 (amended): the round trip `Apply(bs)` then `Rollback(bs.no − 1)`
restores the pre-Apply trie root and account map provided every touched
account id was already present in the in-memory map holding exactly the
recorded `Undo` value, and present in the trie with the `Undo`'s hash (true
of accounts with non-empty pre states recorded by `PutAccount`); accounts
whose pre state was absent or structurally empty (null `Undo`) are not
restored — the counterexample — as rollback stores an explicit nil entry in
the map and writes an empty-state hash into the trie instead of removing the
key. -/
theorem apply_rollback_restores_recorded_prestate (env : Env) (sdb : ChainStateDB)
    (bs : BlockState)
    (hTF : env.trieFail = false) (hSF : env.saveFail = false)
    (hNo : bs.info.blockNo = sdb.latest.blockNo + 1)
    (hPrev : bs.info.prevHash = sdb.latest.blockHash)
    (hNC : bs.info.blockHash ≠ sdb.latest.blockHash)
    (hPrevBS : ∃ bsp, sdb.blockStates sdb.latest.blockHash = some bsp)
    (hND : (bs.accounts.map Prod.fst).Nodup)
    (hAcc : ∀ p ∈ bs.accounts, sdb.accounts p.1 = some p.2.undo)
    (hTrie : ∀ p ∈ bs.accounts, sdb.trie.data p.1 = some (undoGetHash p.2.undo)) :
    (Apply env sdb bs).2 = none ∧
    (Rollback env (Apply env sdb bs).1 (bs.info.blockNo - 1)).2 = none ∧
    (Rollback env (Apply env sdb bs).1 (bs.info.blockNo - 1)).1.accounts
      = sdb.accounts ∧
    (Rollback env (Apply env sdb bs).1 (bs.info.blockNo - 1)).1.GetHash
      = sdb.GetHash := by
  obtain ⟨bsp, hbsp⟩ := hPrevBS
  have hA := Apply_ok env sdb bs hTF hSF hNo hPrev
  rw [hA]
  have hR := Rollback_one env
    { sdb with
      accounts := putAll sdb.accounts bs.accounts
      trie := trieStep sdb.trie bs false
      latest := bs.info
      blockStates := fun h =>
        if h = bs.info.blockHash then some bs else sdb.blockStates h }
    sdb.latest.blockNo bs bsp hTF hSF rfl hNo
    (by simp)
    (by
      show (if bs.info.prevHash = bs.info.blockHash then some bs
        else sdb.blockStates bs.info.prevHash) = some bsp
      rw [if_neg (by rw [hPrev]; exact fun hc => hNC hc.symm), hPrev]
      exact hbsp)
  have htgt : bs.info.blockNo - 1 = sdb.latest.blockNo := by omega
  rw [htgt, hR]
  refine ⟨rfl, rfl, ?_, ?_⟩
  · exact undoAll_putAll_restore sdb.accounts bs.accounts hND hAcc
  · show (trieStep (trieStep sdb.trie bs false) bs true).Root = sdb.trie.Root
    simp only [Trie.Root]
    exact trieStep_undo_restore sdb.trie bs hND hTrie

/-- C3 witness for the amended round trip: one account whose recorded pre
state matches the engine's map and trie; the round trip restores both. -/
theorem apply_rollback_restores_recorded_prestate_witness :
    (Apply envOk engine1 bs2).2 = none ∧
    (Rollback envOk (Apply envOk engine1 bs2).1 (bs2.info.blockNo - 1)).2 = none ∧
    (Rollback envOk (Apply envOk engine1 bs2).1 (bs2.info.blockNo - 1)).1.accounts
      = engine1.accounts ∧
    (Rollback envOk (Apply envOk engine1 bs2).1 (bs2.info.blockNo - 1)).1.GetHash
      = engine1.GetHash :=
  apply_rollback_restores_recorded_prestate envOk engine1 bs2 rfl rfl (by decide)
    (by decide) (by decide) ⟨bs1, by decide⟩ (by decide) (by decide) (by decide)

/-! ## Claim C2 -/

/-- C2: with no injected I/O failure and a consistent persisted log,
`Rollback(targetNo)` on an engine at height `n` errs exactly when
`targetNo ≥ n`; when `targetNo < n` it reverts the stored deltas of blocks
`n, n-1, …, targetNo+1` in descending order — setting each touched account
back to its recorded pre state and undoing the trie update — keeps the block
at `targetNo` un-reverted (its height list excludes `targetNo`), leaves
`latest.no = targetNo` and the log untouched; `targetNo = 0` is legal and
lands on the genesis snapshot. -/
theorem rollback_reverts_descending_to_target (env : Env) (sdb : ChainStateDB)
    (targetNo : Nat)
    (hTF : env.trieFail = false) (hSF : env.saveFail = false)
    (hOk : chainOkB sdb.blockStates sdb.latest.blockNo sdb.latest.blockHash = true) :
    ((Rollback env sdb targetNo).2.isSome = true ↔ sdb.latest.blockNo ≤ targetNo) ∧
    (sdb.latest.blockNo ≤ targetNo → (Rollback env sdb targetNo).1 = sdb) ∧
    (targetNo < sdb.latest.blockNo →
      (Rollback env sdb targetNo).1.accounts
          = revertAccountsF sdb.accounts
              (chainList sdb.blockStates (sdb.latest.blockNo - targetNo)
                sdb.latest.blockHash) ∧
      (Rollback env sdb targetNo).1.trie
          = revertTrieF sdb.trie
              (chainList sdb.blockStates (sdb.latest.blockNo - targetNo)
                sdb.latest.blockHash) ∧
      (Rollback env sdb targetNo).1.latest.blockNo = targetNo ∧
      (Rollback env sdb targetNo).1.blockStates = sdb.blockStates ∧
      (chainList sdb.blockStates (sdb.latest.blockNo - targetNo)
          sdb.latest.blockHash).map (fun bs => bs.info.blockNo)
        = (List.range' (targetNo + 1) (sdb.latest.blockNo - targetNo)).reverse) := by
  by_cases hle : sdb.latest.blockNo ≤ targetNo
  · have hR : Rollback env sdb targetNo = (sdb, some "Failed to rollback: invalid block no") := by
      simp only [Rollback]
      rw [if_pos hle]
    rw [hR]
    refine ⟨by simpa using hle, fun _ => rfl, fun hcon => absurd hcon (by omega)⟩
  · have hk : sdb.latest.blockNo = targetNo + (sdb.latest.blockNo - targetNo) := by omega
    have hloop := rollbackLoop_spec env sdb.blockStates hTF
      (sdb.latest.blockNo - targetNo) (sdb.latest.blockNo + 1) sdb sdb.latest targetNo
      rfl hOk hk (by omega)
    have hR : Rollback env sdb targetNo
        = ((rollbackLoop env (sdb.latest.blockNo + 1) sdb sdb.latest targetNo).1, none) := by
      simp only [Rollback]
      rw [if_neg hle]
      rcases hr : rollbackLoop env (sdb.latest.blockNo + 1) sdb sdb.latest targetNo
        with ⟨s1, e1⟩
      have he : e1 = none := by
        have h2 := hloop.1
        rw [hr] at h2
        exact h2
      subst he
      simp [saveStateDB, hSF]
    rw [hR]
    refine ⟨by simpa using hle, fun hcon => absurd hcon hle, fun _ => ?_⟩
    refine ⟨hloop.2.1, hloop.2.2.1, hloop.2.2.2.2, ?_, ?_⟩
    · exact hloop.2.2.2.1
    · have hOk2 := hOk
      rw [hk] at hOk2
      exact chainList_blockNos sdb.blockStates (sdb.latest.blockNo - targetNo)
        sdb.latest.blockHash targetNo hOk2

/-- C2 witness: on the concrete two-block engine, `Rollback(0)` succeeds,
lands at genesis height, and `Rollback(2)` (the current height) errs. -/
theorem rollback_reverts_descending_to_target_witness :
    (Rollback envOk engine2 0).2.isSome = false ∧
    (Rollback envOk engine2 0).1.latest.blockNo = 0 ∧
    (Rollback envOk engine2 2).2.isSome = true := by
  have h0 := rollback_reverts_descending_to_target envOk engine2 0 rfl rfl (by decide)
  have h2 := rollback_reverts_descending_to_target envOk engine2 2 rfl rfl (by decide)
  refine ⟨?_, ?_, ?_⟩
  · rcases Bool.eq_false_or_eq_true ((Rollback envOk engine2 0).2.isSome) with hb | hb
    · exact absurd (h0.1.mp hb) (by decide)
    · exact hb
  · exact (h0.2.2 (by decide)).2.2.1
  · exact h2.1.mpr (by decide)

/-! ## Claim C4 -/

def entA : StateEntry := { state := sOld, undo := none }
def entB : StateEntry := { state := sNew, undo := some sOld }

/-- A block state whose account keys arrive unsorted: [2], [1,2], [1]. -/
def bs4 : BlockState :=
  { info := { blockNo := 1, blockHash := 9, prevHash := 7 }
    accounts := [(acct2, entA), (acct3, entB), (acct1, entA)] }

/-- C4: for a block state with a non-empty, duplicate-free account map (Go
map keys are unique), the key list `updateTrie` hands to `trie.Update` is
strictly ascending in lexicographic order on the raw account-id bytes (hence
duplicate-free), and the apply pass and the undo pass of the same block state
invoke `trie.Update` with exactly the same key list, differing only in the
value list. -/
theorem updateTrie_keys_sorted_and_shared (bs : BlockState)
    (hne : bs.accounts ≠ []) (hnd : (bs.accounts.map Prod.fst).Nodup) :
    List.Pairwise bytesLt (updateTrieKeys bs) ∧
    (updateTrieKeys bs).Nodup ∧
    (∀ env sdb, env.trieFail = false →
      (updateTrie env sdb bs false).1.trie
          = sdb.trie.update (updateTrieKeys bs)
              ((updateTrieKeys bs).map (trieEntryVal bs false)) ∧
      (updateTrie env sdb bs true).1.trie
          = sdb.trie.update (updateTrieKeys bs)
              ((updateTrieKeys bs).map (trieEntryVal bs true))) := by
  have hperm := List.perm_insertionSort bytesLe (bs.accounts.map Prod.fst)
  have hnd2 : (updateTrieKeys bs).Nodup := by
    rw [updateTrieKeys]
    exact hperm.nodup_iff.mpr hnd
  have hsorted : List.Sorted bytesLe (updateTrieKeys bs) :=
    List.sorted_insertionSort bytesLe (bs.accounts.map Prod.fst)
  have hlen : ¬ (bs.accounts.length ≤ 0) := by
    rw [Nat.le_zero, List.length_eq_zero]
    exact hne
  refine ⟨?_, hnd2, ?_⟩
  · exact (List.Pairwise.and hsorted hnd2).imp
      (fun h => bytesLt_of_le_of_ne h.1 h.2)
  · intro env sdb hTF
    constructor
    · rw [updateTrie_ok env sdb bs false hTF]
      show trieStep sdb.trie bs false = _
      rw [trieStep, if_neg hlen]
    · rw [updateTrie_ok env sdb bs true hTF]
      show trieStep sdb.trie bs true = _
      rw [trieStep, if_neg hlen]

/-- C4 witness: on a concrete three-account block state with unsorted keys
`[2], [1,2], [1]`, the key list fed to the trie is strictly ascending. -/
theorem updateTrie_keys_sorted_and_shared_witness :
    bs4.accounts ≠ [] ∧ (bs4.accounts.map Prod.fst).Nodup ∧
    List.Pairwise bytesLt (updateTrieKeys bs4) ∧ (updateTrieKeys bs4).Nodup := by
  refine ⟨by decide, by decide, ?_, ?_⟩
  · exact (updateTrie_keys_sorted_and_shared bs4 (by decide) (by decide)).1
  · exact (updateTrie_keys_sorted_and_shared bs4 (by decide) (by decide)).2.1

/-! ## Claim C5 -/

theorem saveStateDB_fst (env : Env) (sdb : ChainStateDB) :
    (saveStateDB env sdb).1 = sdb := by
  simp only [saveStateDB]
  split_ifs <;> rfl

theorem updateTrie_commitCount (env : Env) (sdb : ChainStateDB) (bs : BlockState)
    (undo : Bool) :
    (updateTrie env sdb bs undo).1.trie.commitCount = sdb.trie.commitCount := by
  simp only [updateTrie]
  split_ifs with h1 h2 h3
  · rfl
  · rfl
  · rfl
  · omega

/-- C5: no execution path of `Apply` ever invokes the trie's `Commit`: the
`Commit()` call in `updateTrie` (statedb.go:220) is dead code, because the
empty case returns on line 197 and the non-empty case returns on line 218
right after `Update`. The commit counter is untouched even by a successful
`Apply` of a block state touching an account, exhibited concretely by the
second and third conjuncts. -/
theorem apply_never_invokes_commit :
    (∀ env sdb bs, (Apply env sdb bs).1.trie.commitCount = sdb.trie.commitCount) ∧
    (Apply envOk engine1 bs2).2 = none ∧ bs2.accounts ≠ [] := by
  refine ⟨?_, by decide, by decide⟩
  intro env sdb bs
  simp only [Apply]
  split_ifs with h1 h2
  · rfl
  · rfl
  · rcases hr : updateTrie env
        { saveBlockState sdb bs with
          accounts := putAll (saveBlockState sdb bs).accounts bs.accounts } bs false
      with ⟨s3, e3⟩
    have hc := updateTrie_commitCount env
      { saveBlockState sdb bs with
        accounts := putAll (saveBlockState sdb bs).accounts bs.accounts } bs false
    rw [hr] at hc
    cases e3 with
    | some e => exact hc
    | none =>
      show (saveStateDB env { s3 with latest := bs.info }).1.trie.commitCount
        = sdb.trie.commitCount
      rw [saveStateDB_fst]
      exact hc

/-! ## Claim C6 -/

/-- C6: `AuthenticateMessage` accepts every inbound envelope unconditionally
— the source returns `true` before any verification runs ("for Test only"),
so no message with an invalid signature is ever rejected, contrary to the
claim that some invalid-signature message yields `false`. -/
theorem authenticateMessage_unconditionally_true :
    ∀ (message : List Nat) (data : MessageData),
      AuthenticateMessage message data = true :=
  fun _ _ => rfl

/-! ## Claims C7, C9, C10 -/

def stoppingPeer : RemotePeer := { id := 5, state := PeerState.STOPPING }
def peer5 : RemotePeer := { id := 5, state := PeerState.RUNNING }

/-- C7 counterexample: a peer in STOPPING state still gets a new-transaction
notice enqueued by `NotifyNewTX`, while `NotifyNewBlock` drops it — refuting
the claim that both broadcast paths enqueue only to RUNNING peers. -/
theorem notifyNewTX_enqueues_to_non_running_peer :
    NotifyNewTX [stoppingPeer] [[1]]
        = [(5, { protocolID := newBlockNotice
                 payload := MsgPayload.txNotice [[1]] })] ∧
    NotifyNewBlock [stoppingPeer] [1] 1 = [] := by
  constructor <;> rfl

/-- C7 (amended): `NotifyNewBlock` enqueues its notice exactly to the RUNNING
peers of the snapshot, silently dropping the rest, but `NotifyNewTX` enqueues
its notice to every peer of the snapshot regardless of state. -/
theorem broadcast_running_filter_only_for_blocks (peers : List RemotePeer)
    (h : List Nat) (no : Nat) (txs : List (List Nat)) :
    NotifyNewBlock peers h no
        = (peers.filter (fun p => p.state == PeerState.RUNNING)).map
            (fun p => (p.id, newPbMsgBroadcastOrder false newBlockNotice
              (MsgPayload.blockNotice h no))) ∧
    NotifyNewTX peers txs
        = peers.map (fun p => (p.id, newPbMsgBroadcastOrder false newBlockNotice
            (MsgPayload.txNotice txs))) := by
  constructor
  · induction peers with
    | nil => rfl
    | cons p ps ih =>
      simp only [NotifyNewBlock, List.filter_cons]
      by_cases hp : p.state = PeerState.RUNNING
      · rw [if_pos hp]
        simp [hp, ih]
      · rw [if_neg hp]
        simp [hp, ih]
  · induction peers with
    | nil => rfl
    | cons p ps ih => simp [NotifyNewTX, ih]

/-- C9: `GetMissingBlocks` panics on the empty hash list (the source slices
`bhashes[1:]` and indexes `bhashes[0]` on an empty slice) even though the
peer lookup succeeded, violating the never-panic contract for steady-state
paths; the unknown-peer and non-empty cases return normally. -/
theorem getMissingBlocks_empty_list_panics :
    GetMissingBlocks [peer5] 5 [] = none ∧
    GetMissingBlocks [] 5 [] = some (false, []) ∧
    GetMissingBlocks [peer5] 5 [[9], [10]]
      = some (true, [(5, newPbMsgRequestOrder false true getMissingRequest
          (MsgPayload.missingReq [[10]] [9]))]) := by
  refine ⟨rfl, rfl, rfl⟩

/-- C10: every order `NotifyNewTX` hands to a peer's send queue carries the
`newBlock/notice` protocol id — the id of `newBlockNotice` — and not the
`newTX/notice` id, exactly as the source builds it. -/
theorem notifyNewTX_tagged_with_newBlockNotice_id (peers : List RemotePeer)
    (txs : List (List Nat)) :
    ((NotifyNewTX peers txs).all fun pm => pm.2.protocolID == newBlockNotice) = true ∧
    newBlockNotice ≠ newTxNotice := by
  constructor
  · induction peers with
    | nil => rfl
    | cons p ps ih => simp [NotifyNewTX, newPbMsgBroadcastOrder, ih]
  · decide

/-! ## Claim C8 -/

/-- C8: while a hash is missing from the dedup cache (capacity 100), the
first `HandleNewBlockNotice` for it inserts it and issues exactly one
`GetBlock` request to the chain service — followed by exactly one
`GetBlockInfos` back to the notifier iff the chain service answers "not
found" — and a second notice for the same hash, from any peer and with any
chain answer, is dropped silently with no request at all. -/
theorem handleNewBlockNotice_dedup_single_request (c : LruCache)
    (r1 r2 : ChainResp) (pA pB : Nat) (d : NewBlockNoticeData)
    (hcap : c.cap = DefaultGlobalInvCacheSize)
    (hmiss : (c.entries.any fun e => e.1 == d.blockHash) = false) :
    ((HandleNewBlockNotice c r1 pA d).2.head?
      = some (PMRequest.getBlock d.blockHash)) ∧
    (r1 = ChainResp.notFound →
      (HandleNewBlockNotice c r1 pA d).2
        = [PMRequest.getBlock d.blockHash, PMRequest.getBlockInfos pA d.blockHash]) ∧
    (r1 ≠ ChainResp.notFound →
      (HandleNewBlockNotice c r1 pA d).2 = [PMRequest.getBlock d.blockHash]) ∧
    (HandleNewBlockNotice (HandleNewBlockNotice c r1 pA d).1 r2 pB d).2 = [] := by
  have h1 : c.containsOrAdd d.blockHash d.blockHash
      = (false, { c with
          entries := ((d.blockHash, d.blockHash) :: c.entries).take c.cap }) := by
    rw [LruCache.containsOrAdd, if_neg (by simp [hmiss])]
  have hc1 : ((((d.blockHash, d.blockHash) :: c.entries).take c.cap).any
      fun e => e.1 == d.blockHash) = true := by
    rw [hcap]
    show ((((d.blockHash, d.blockHash) :: c.entries).take (99 + 1)).any
      fun e => e.1 == d.blockHash) = true
    rw [List.take_succ_cons]
    simp
  have hsecond : ∀ r p, (HandleNewBlockNotice
      { c with entries := ((d.blockHash, d.blockHash) :: c.entries).take c.cap }
      r p d).2 = [] := by
    intro r p
    simp only [HandleNewBlockNotice, LruCache.containsOrAdd]
    rw [if_pos hc1]
  simp only [HandleNewBlockNotice, h1]
  refine ⟨?_, ?_, ?_, ?_⟩
  · cases r1 <;> rfl
  · intro hr; subst hr; rfl
  · intro hr
    cases r1 with
    | found => rfl
    | notFound => exact absurd rfl hr
    | callError => rfl
    | badType => rfl
  · cases r1 <;> exact hsecond r2 pB

/-- C8 witness: empty 100-capacity cache, hash 3 noticed by peer 1 with a
"not found" answer, then by peer 2: one `GetBlock`, one `GetBlockInfos` to
peer 1, and nothing for the duplicate. -/
theorem handleNewBlockNotice_dedup_single_request_witness :
    ((HandleNewBlockNotice ⟨[], 100⟩ ChainResp.notFound 1 ⟨3, 5⟩).2
      = [PMRequest.getBlock 3, PMRequest.getBlockInfos 1 3]) ∧
    (HandleNewBlockNotice (HandleNewBlockNotice ⟨[], 100⟩ ChainResp.notFound 1 ⟨3, 5⟩).1
        ChainResp.found 2 ⟨3, 5⟩).2 = [] := by
  have h := handleNewBlockNotice_dedup_single_request ⟨[], 100⟩ ChainResp.notFound
    ChainResp.found 1 2 ⟨3, 5⟩ rfl rfl
  exact ⟨h.2.1 rfl, h.2.2.2⟩

end Aergo
